import Mathlib

/-!
Verification of the Brackets find-and-replace core:
the `$`-expression expansion (`parseDollars`), the in-memory and on-disk
single-file replacement variants, the batch orchestration
(`performReplacements`), and the `SearchModel` sorted-file-path query.

The JavaScript source is embedded shallowly: strings are `String`
(lists of characters), regexp match arrays are `List (Option String)`
(a JS array with possibly-undefined entries), timestamps are `Nat`
(the value of `Date.getTime()`), promises are `Except` values, and the
side effects of the document/file-system collaborators are recorded
explicitly in a per-file slot state (write log, batch-edit log).
-/

namespace Brackets

/-! ### `parseDollars`: the `$`-expression expansion

The source performs
`replaceWith.replace(/(\$+)(\d{1,2}|&)/g, callback)` followed by
`replaceWith.replace(/\$\$/g, "$")`.  The first global regexp replace is
embedded as a left-to-right scanner: a match of `(\$+)(\d{1,2}|&)` is a
maximal run of `$` characters immediately followed by `&` or by one or
two (greedy) decimal digits. -/

/-- `\d`: a decimal digit `0`–`9`. -/
def isDig (c : Char) : Bool := 48 ≤ c.toNat && c.toNat ≤ 57

/-- `parseInt(index, 10)` for the captured 1–2 digit token. -/
def digitsToNat : List Char → Nat
  | [d] => d.toNat - 48
  | [d1, d2] => (d1.toNat - 48) * 10 + (d2.toNat - 48)
  | _ => 0

/-- `match[i] || ""`: entry `i` of the regexp match array, with both a
missing (`undefined`) entry and an empty string collapsing to `""`. -/
def groupText (m : List (Option String)) (i : Nat) : String :=
  match m.getD i none with
  | some s => s
  | none => String.mk []

/-- The replacement callback of the first `replace`:
`function (whole, dollars, index) { var parsedIndex = parseInt(index, 10);
if (dollars.length % 2 === 1) { if (index === "&") { return
dollars.substr(1) + (match[0] || ""); } else if (parsedIndex !== 0) {
return dollars.substr(1) + (match[parsedIndex] || ""); } } return whole; }`
-/
def dollarsCallback (m : List (Option String)) (k : Nat) (tok : List Char) : List Char :=
  if k % 2 = 1 then
    if tok = ['&'] then List.replicate (k - 1) '$' ++ (groupText m 0).data
    else if digitsToNat tok ≠ 0 then
      List.replicate (k - 1) '$' ++ (groupText m (digitsToNat tok)).data
    else List.replicate k '$' ++ tok
  else List.replicate k '$' ++ tok

/-- Scanner for `replace(/(\$+)(\d{1,2}|&)/g, callback)`.  The first
argument counts the pending run of `$` characters already consumed. -/
def dollarScan (m : List (Option String)) : Nat → List Char → List Char
  | p, [] => List.replicate p '$'
  | p, c :: rest =>
    if c = '$' then dollarScan m (p + 1) rest
    else if 0 < p then
      if c = '&' then dollarsCallback m p ['&'] ++ dollarScan m 0 rest
      else if isDig c then
        match rest with
        | [] => dollarsCallback m p [c]
        | c2 :: rest2 =>
          if isDig c2 then dollarsCallback m p [c, c2] ++ dollarScan m 0 rest2
          else dollarsCallback m p [c] ++ dollarScan m 0 (c2 :: rest2)
      else List.replicate p '$' ++ c :: dollarScan m 0 rest
    else c :: dollarScan m 0 rest

/-- The first pass of `parseDollars` over a character list. -/
def dollarSubstPass (replaceWith : List Char) (m : List (Option String)) : List Char :=
  dollarScan m 0 replaceWith

/-- `replace(/\$\$/g, "$")`: collapse non-overlapping `$$` pairs, left to
right. -/
def collapseDollars : List Char → List Char
  | [] => []
  | [c] => [c]
  | c1 :: c2 :: rest =>
    if c1 = '$' ∧ c2 = '$' then '$' :: collapseDollars rest
    else c1 :: collapseDollars (c2 :: rest)

/-- `function parseDollars(replaceWith, match)` from the source. -/
def parseDollars (replaceWith : String) (m : List (Option String)) : String :=
  String.mk (collapseDollars (dollarSubstPass replaceWith.data m))

/-- A run of `k` dollar signs. -/
def dollarRun (k : Nat) : List Char := List.replicate k '$'

/-- The token shapes matched by `(\d{1,2}|&)`, digits case. -/
def digitsTok : List Char → Bool
  | [d] => isDig d
  | [d1, d2] => isDig d1 && isDig d2
  | _ => false

/-- The group index addressed by a matched token: `&` addresses group 0,
a digit token addresses the group given by its decimal value. -/
def tokIndex (tok : List Char) : Nat :=
  if tok = ['&'] then 0 else digitsToNat tok

/-- `true` iff the string contains no two consecutive `$` characters
(so the `$$`-collapse pass leaves it unchanged). -/
def noDollarPair : List Char → Bool
  | [] => true
  | [_] => true
  | c1 :: c2 :: rest => !(c1 == '$' && c2 == '$') && noDollarPair (c2 :: rest)

/-! ### Data model -/

/-- A CodeMirror `{line, ch}` position. -/
structure Pos where
  line : Nat
  ch : Nat
deriving DecidableEq

/-- `CodeMirror.cmpPos(a, b)`, i.e. `a.line - b.line || a.ch - b.ch`. -/
def cmpPos (a b : Pos) : Int :=
  if a.line ≠ b.line then (a.line : Int) - b.line else (a.ch : Int) - b.ch

/-- One search match, as produced by `_addSearchMatches` and consumed by the
replacement engine.  The source's `end` field is `endPos` here (`end` is a
Lean keyword); `result` is the regexp match array used for `$`-expansion. -/
structure Match where
  start : Pos
  endPos : Pos
  startOffset : Nat
  endOffset : Nat
  isChecked : Bool
  result : List (Option String)
deriving DecidableEq

/-- The per-file aggregate stored in the results object:
`{matches, collapsed, timestamp}`. -/
structure MatchInfo where
  «matches» : List Match
  collapsed : Bool
  timestamp : Nat
deriving DecidableEq

/-- The typed per-file replacement errors: `exports.ERROR_FILE_CHANGED`
(`"fileChanged"`), and a read failure for a missing file. -/
inductive RError where
  | fileChanged
  | notFound
deriving DecidableEq

deriving instance DecidableEq for Except

/-- The text to substitute for one match:
`isRegexp ? parseDollars(replaceText, match.result) : replaceText`. -/
def replacementFor (replaceText : String) (isRegexp : Bool) (m : Match) : String :=
  if isRegexp then parseDollars replaceText m.result else replaceText

/-! ### In-memory replacement (`_doReplaceInDocument`)

The document buffer is an external collaborator; its mutations are recorded
as a trace of `replaceRange` calls, grouped into `batchOperation` blocks. -/

/-- One `doc.replaceRange(text, start, end)` call. -/
structure DocEdit where
  text : String
  start : Pos
  endPos : Pos
deriving DecidableEq

/-- The descending order used by
`matchInfo.matches.sort(function (match1, match2) { return
CodeMirror.cmpPos(match2.start, match1.start); })`:
`match1` sorts before `match2` iff the comparator is `≤ 0`. -/
def matchDescLe (m1 m2 : Match) : Prop := cmpPos m2.start m1.start ≤ 0

instance : DecidableRel matchDescLe := fun m1 m2 =>
  inferInstanceAs (Decidable (cmpPos m2.start m1.start ≤ 0))

instance : IsTotal Match matchDescLe :=
  ⟨fun m1 m2 => by
    unfold matchDescLe cmpPos
    split <;> split <;> omega⟩

instance : IsTrans Match matchDescLe :=
  ⟨fun m1 m2 m3 h12 h23 => by
    unfold matchDescLe cmpPos at h12 h23 ⊢
    split at h12 <;> split at h23 <;> split <;> omega⟩

/-- `function _doReplaceInDocument(doc, matchInfo, replaceText, isRegexp)`.
Returns the mutated `matchInfo` (its `matches` array is sorted in place),
the list of `batchOperation` blocks applied to the document (each a list
of `replaceRange` calls), and the promise outcome, which is always a
resolve (`new $.Deferred().resolve().promise()`). -/
def _doReplaceInDocument (matchInfo : MatchInfo) (replaceText : String) (isRegexp : Bool) :
    MatchInfo × List (List DocEdit) × Except RError Unit :=
  let sorted := matchInfo.«matches».insertionSort matchDescLe
  let edits := sorted.filterMap fun m =>
    if m.isChecked then
      some { text := replacementFor replaceText isRegexp m
             start := m.start
             endPos := m.endPos }
    else none
  ({ matchInfo with «matches» := sorted }, [edits], Except.ok ())

/-! ### On-disk replacement (`_doReplaceOnDisk`) -/

/-- Line-ending conventions reported by the read path
(`FileUtils.LINE_ENDINGS_LF` / `LINE_ENDINGS_CRLF`). -/
inductive LineEndings where
  | lf
  | crlf
deriving DecidableEq

/-- `s.replace(/\n/g, "\r\n")` on the character list. -/
def lfToCrlfChars : List Char → List Char
  | [] => []
  | '\n' :: rest => '\r' :: '\n' :: lfToCrlfChars rest
  | c :: rest => c :: lfToCrlfChars rest

/-- `s.replace(/\n/g, "\r\n")`. -/
def lfToCrlf (s : String) : String := String.mk (lfToCrlfChars s.data)

/-- `s.replace(/\r\n/g, "\n")` on the character list (the normalization
applied by the document-manager read path for CRLF files). -/
def crlfToLfChars : List Char → List Char
  | '\r' :: '\n' :: rest => '\n' :: crlfToLfChars rest
  | c :: rest => c :: crlfToLfChars rest
  | [] => []

/-- `s.replace(/\r\n/g, "\n")`. -/
def crlfToLf (s : String) : String := String.mk (crlfToLfChars s.data)

/-- A file as seen by the file system: its raw on-disk bytes, its current
modification timestamp (`getTime()` value), and the line-ending convention
the read path reports for it. -/
structure FileState where
  contents : String
  timestamp : Nat
  lineEndings : LineEndings
deriving DecidableEq

/-- Modelled from the spec: the read path
(`DocumentManager.getDocumentText(file, true)`, not under `src/`) resolves
with the file text normalized to `\n` line endings, the modification
timestamp, and the detected line-ending convention. -/
def readText (f : FileState) : String :=
  if f.lineEndings = LineEndings.crlf then crlfToLf f.contents else f.contents

/-- The line-ending restoration before the write:
`if (lineEndings === FileUtils.LINE_ENDINGS_CRLF) { newContents =
newContents.replace(/\n/g, "\r\n"); }`. -/
def encodeLE (le : LineEndings) (s : String) : String :=
  if le = LineEndings.crlf then lfToCrlf s else s

/-- A file state is coherent when re-encoding what the read path returns
reproduces the on-disk bytes (the spec assumes the read path has
normalized line endings to a single canonical form). -/
def lineEndingsConsistent (f : FileState) : Prop :=
  encodeLE f.lineEndings (readText f) = f.contents

instance (f : FileState) : Decidable (lineEndingsConsistent f) :=
  inferInstanceAs (Decidable (encodeLE f.lineEndings (readText f) = f.contents))

/-- The segment walk of `_doReplaceOnDisk`: for each checked match, push
`contents.slice(lastIndex, match.startOffset)` and the replacement text
and advance `lastIndex` to `match.endOffset`; finally push
`contents.slice(lastIndex)`; the pushed segments are joined with `""`.
JS `slice(a, b)` on 0 ≤ `a`,`b` is `(take b).drop a`. -/
def buildReplacedChars (contents : List Char) (replaceText : String) (isRegexp : Bool) :
    List Match → Nat → List Char
  | [], lastIndex => contents.drop lastIndex
  | m :: rest, lastIndex =>
    if m.isChecked then
      ((contents.take m.startOffset).drop lastIndex
        ++ (replacementFor replaceText isRegexp m).data)
        ++ buildReplacedChars contents replaceText isRegexp rest m.endOffset
    else buildReplacedChars contents replaceText isRegexp rest lastIndex

/-- `function _doReplaceOnDisk(fullPath, matchInfo, replaceText, isRegexp)`:
read the file; reject with `ERROR_FILE_CHANGED` when the current timestamp
differs from the captured one; otherwise walk the matches in stored order
(the source does not sort here — "Note that this assumes that the matches
are sorted."), restore CRLF line endings if needed, and resolve with the
contents handed to `file.write`. -/
def _doReplaceOnDisk (f : FileState) (matchInfo : MatchInfo) (replaceText : String)
    (isRegexp : Bool) : Except RError String :=
  if f.timestamp ≠ matchInfo.timestamp then Except.error RError.fileChanged
  else
    Except.ok (encodeLE f.lineEndings
      (String.mk (buildReplacedChars (readText f).data replaceText isRegexp
        matchInfo.«matches» 0)))

/-! ### Per-file dispatch and batch orchestration -/

/-- The observable state of one file across the collaborators: its on-disk
state, whether a document for it is open in memory, the log of
`batchOperation` blocks applied to that document, and the log of contents
handed to `file.write`. -/
structure FileSlot where
  file : FileState
  isOpen : Bool
  docBatches : List (List DocEdit)
  writes : List String
deriving DecidableEq

/-- The options object of `performReplacements` /
`_doReplaceInOneFile`. -/
structure ReplaceOptions where
  forceFilesOpen : Bool
  isRegexp : Bool
deriving DecidableEq

/-- `_doReplaceOnDisk` acting on a file slot: on success the new contents
are written to disk (and logged); on failure the slot is untouched. -/
def replaceOnDiskSlot (s : FileSlot) (mi : MatchInfo) (rt : String) (ir : Bool) :
    FileSlot × Except RError Unit :=
  match _doReplaceOnDisk s.file mi rt ir with
  | Except.error e => (s, Except.error e)
  | Except.ok newContents =>
    ({ s with
        file := { s.file with contents := newContents }
        writes := s.writes ++ [newContents] },
     Except.ok ())

/-- `function _doReplaceInOneFile(fullPath, matchInfo, replaceText, options)`:
an already-open document is edited in memory; otherwise `forceFilesOpen`
opens a document first and edits in memory; otherwise the file is edited
on disk.  `none` models a path whose read fails (no such file). -/
def _doReplaceInOneFile (s : Option FileSlot) (mi : MatchInfo) (rt : String)
    (options : ReplaceOptions) : Option FileSlot × Except RError Unit :=
  match s with
  | none => (none, Except.error RError.notFound)
  | some slot =>
    if slot.isOpen then
      let r := _doReplaceInDocument mi rt options.isRegexp
      (some { slot with docBatches := slot.docBatches ++ r.2.1 }, r.2.2)
    else if options.forceFilesOpen then
      let r := _doReplaceInDocument mi rt options.isRegexp
      (some { slot with isOpen := true, docBatches := slot.docBatches ++ r.2.1 }, r.2.2)
    else
      let r := replaceOnDiskSlot slot mi rt options.isRegexp
      (some r.1, r.2)

/-- Association-list lookup over the world (first entry wins). -/
def lookupSlot : List (String × FileSlot) → String → Option FileSlot
  | [], _ => none
  | e :: rest, p => if e.1 = p then some e.2 else lookupSlot rest p

/-- Replace the slot stored for a path. -/
def updateSlot : List (String × FileSlot) → String → FileSlot → List (String × FileSlot)
  | [], _, _ => []
  | e :: rest, p, s => (if e.1 = p then (p, s) else e) :: updateSlot rest p s

/-- One step of the batch fold: run `_doReplaceInOneFile` for one results
entry, write the slot back, and append `{item, error}` on failure. -/
def stepRepl (rt : String) (opts : ReplaceOptions)
    (acc : List (String × FileSlot) × List (String × RError))
    (pr : String × MatchInfo) : List (String × FileSlot) × List (String × RError) :=
  match _doReplaceInOneFile (lookupSlot acc.1 pr.1) pr.2 rt opts with
  | (some s1, Except.ok _) => (updateSlot acc.1 pr.1 s1, acc.2)
  | (some s1, Except.error e) => (updateSlot acc.1 pr.1 s1, acc.2 ++ [(pr.1, e)])
  | (none, Except.ok _) => (acc.1, acc.2)
  | (none, Except.error e) => (acc.1, acc.2 ++ [(pr.1, e)])

/-- `function performReplacements(results, replaceText, options)`.
Modelled from the spec: `Async.doInParallel_aggregateErrors`
(`utils/Async`, not under `src/`) runs one operation per entry,
collects an `{item, error}` pair for every failure, resolves iff no
operation failed and otherwise rejects with the complete error list;
cross-file ordering is immaterial (spec §5), so the fan-out is modelled
as a sequential fold.  The results object is an insertion-ordered map,
modelled as an association list with distinct keys; the trailing
`forceFilesOpen` current-document UI selection is outside the modelled
state. -/
def performReplacements (w : List (String × FileSlot)) (results : List (String × MatchInfo))
    (replaceText : String) (options : ReplaceOptions) :
    List (String × FileSlot) × Except (List (String × RError)) Unit :=
  let out := results.foldl (stepRepl replaceText options) (w, [])
  (out.1, if out.2 = [] then Except.ok () else Except.error out.2)

/-- The `{item, error}` entry the aggregation records for one results
entry when its operation runs against the world `w` — `none` when the
per-file promise resolves. -/
def errOf (rt : String) (opts : ReplaceOptions) (w : List (String × FileSlot))
    (pr : String × MatchInfo) : Option (String × RError) :=
  match (_doReplaceInOneFile (lookupSlot w pr.1) pr.2 rt opts).2 with
  | Except.ok _ => none
  | Except.error e => some (pr.1, e)

/-- The error-list contribution of one finished per-file promise. -/
def errEntry (p : String) (r : Except RError Unit) : List (String × RError) :=
  match r with
  | Except.ok _ => []
  | Except.error e => [(p, e)]

/-- The world after one per-file operation finishes: the returned slot is
written back at its path; a failed lookup leaves the world alone. -/
def writeBack (w : List (String × FileSlot)) (p : String) : Option FileSlot →
    List (String × FileSlot)
  | some s1 => updateSlot w p s1
  | none => w

/-! ### `SearchModel` -/

/-- The `SearchModel` state consumed by `getSortedFiles`: the results map
(an insertion-ordered object keyed by full path) and `_selectedEntry`
(set by the view; possibly undefined). -/
structure SearchModel where
  results : List (String × MatchInfo)
  selectedEntry : Option String
deriving DecidableEq

/-- The comparator of `getSortedFiles`:
`if (self._selectedEntry === key1) return -1; else if (self._selectedEntry
=== key2) return 1; return FileUtils.comparePaths(key1, key2);`.
`comparePaths` (`file/FileUtils`, not under `src/`) is a parameter. -/
def sortedFilesComparator (sel : Option String) (comparePaths : String → String → Int)
    (key1 key2 : String) : Int :=
  if sel = some key1 then -1
  else if sel = some key2 then 1
  else comparePaths key1 key2

/-- The order induced by the comparator: `key1` sorts before `key2` iff
the comparator value is `≤ 0`. -/
def sortedFilesLe (sel : Option String) (comparePaths : String → String → Int)
    (key1 key2 : String) : Prop :=
  sortedFilesComparator sel comparePaths key1 key2 ≤ 0

instance (sel : Option String) (cp : String → String → Int) :
    DecidableRel (sortedFilesLe sel cp) := fun k1 k2 =>
  inferInstanceAs (Decidable (sortedFilesComparator sel cp k1 k2 ≤ 0))

/-- `SearchModel.prototype.getSortedFiles`: sort `Object.keys(this.results)`
by the selection-aware comparator.  Modelled from the spec:
`FileUtils.comparePaths` is an abstract deterministic path comparison
passed as `comparePaths`. -/
def getSortedFiles (model : SearchModel) (comparePaths : String → String → Int) :
    List String :=
  (model.results.map Prod.fst).insertionSort
    (sortedFilesLe model.selectedEntry comparePaths)

/-! ### Reference semantics and sample data for the theorems -/

/-- `lb`-bounded well-formedness of a match list against a text of length
`len`: the matches are ascending by offset, non-overlapping, in bounds,
and start at or after `lb`.  This is the sortedness the on-disk walk
assumes ("Note that this assumes that the matches are sorted."). -/
def okChainB (len : Nat) : Nat → List Match → Bool
  | _, [] => true
  | lb, m :: rest =>
    decide (lb ≤ m.startOffset) && decide (m.startOffset ≤ m.endOffset)
      && decide (m.endOffset ≤ len) && okChainB len m.endOffset rest

/-- Splice a replacement into a text: the characters of `[s, e)` are
replaced by `r`. -/
def spliceReplace (c : List Char) (s e : Nat) (r : List Char) : List Char :=
  c.take s ++ r ++ c.drop e

/-- Reference replacement semantics: the checked matches are applied one
at a time, last match first, by splicing each one's offset range. -/
def applyChecked (replaceText : String) (isRegexp : Bool) (c : List Char) :
    List Match → List Char
  | [] => c
  | m :: rest =>
    let c1 := applyChecked replaceText isRegexp c rest
    if m.isChecked then
      spliceReplace c1 m.startOffset m.endOffset
        (replacementFor replaceText isRegexp m).data
    else c1

/-- A checked or unchecked match living on line 0, with character offsets
equal to the document offsets. -/
def mkOffsetMatch (s e : Nat) (checked : Bool) : Match :=
  { start := { line := 0, ch := s }
    endPos := { line := 0, ch := e }
    startOffset := s
    endOffset := e
    isChecked := checked
    result := [] }

/-- Six-character file used by the on-disk order-dependence counterexample. -/
def fileC2 : FileState :=
  { contents := String.mk ['a', 'b', 'c', 'd', 'e', 'f']
    timestamp := 5
    lineEndings := LineEndings.lf }

/-- Two checked matches stored in descending offset order. -/
def miC2unsorted : MatchInfo :=
  { «matches» := [mkOffsetMatch 4 5 true, mkOffsetMatch 0 1 true]
    collapsed := false
    timestamp := 5 }

/-- The same two checked matches stored in ascending offset order. -/
def miC2sorted : MatchInfo :=
  { «matches» := [mkOffsetMatch 0 1 true, mkOffsetMatch 4 5 true]
    collapsed := false
    timestamp := 5 }

/-- Matches stored in ascending start order, used to exhibit the in-place
reordering performed by the in-memory variant. -/
def miC9 : MatchInfo :=
  { «matches» := [mkOffsetMatch 0 1 true, mkOffsetMatch 4 5 false]
    collapsed := false
    timestamp := 0 }

/-- Plain on-disk replacement options. -/
def sampleReplaceOpts : ReplaceOptions := { forceFilesOpen := false, isRegexp := false }

/-- Sample path `"a"`. -/
def pathA : String := String.mk ['a']

/-- Sample path `"b"`. -/
def pathB : String := String.mk ['b']

/-- A two-character LF file with timestamp 1. -/
def fileA : FileState :=
  { contents := String.mk ['x', 'y'], timestamp := 1, lineEndings := LineEndings.lf }

/-- A closed slot holding `fileA`. -/
def slotA : FileSlot := { file := fileA, isOpen := false, docBatches := [], writes := [] }

/-- A one-character LF file with timestamp 2. -/
def fileB : FileState :=
  { contents := String.mk ['u'], timestamp := 2, lineEndings := LineEndings.lf }

/-- A closed slot holding `fileB`. -/
def slotB : FileSlot := { file := fileB, isOpen := false, docBatches := [], writes := [] }

/-- A fresh result for `fileA` (timestamps agree). -/
def miA : MatchInfo :=
  { «matches» := [mkOffsetMatch 0 1 true], collapsed := false, timestamp := 1 }

/-- A stale result for `fileB` (captured at 3, file modified at 2). -/
def miB : MatchInfo :=
  { «matches» := [mkOffsetMatch 0 1 true], collapsed := false, timestamp := 3 }

/-- A two-file world. -/
def worldAB : List (String × FileSlot) := [(pathA, slotA), (pathB, slotB)]

/-- Results over both files; the `pathB` entry is stale. -/
def resultsAB : List (String × MatchInfo) := [(pathA, miA), (pathB, miB)]

/-- A fresh result for `fileA` whose only match is unchecked. -/
def miZeroChecked : MatchInfo :=
  { «matches» := [mkOffsetMatch 0 1 false], collapsed := false, timestamp := 1 }

/-- A CRLF file with timestamp 3. -/
def fileCrlf : FileState :=
  { contents := String.mk ['a', '\r', '\n', 'b'], timestamp := 3
    lineEndings := LineEndings.crlf }

/-- A closed slot holding `fileCrlf`. -/
def slotCrlf : FileSlot := { file := fileCrlf, isOpen := false, docBatches := [], writes := [] }

/-- A fresh all-unchecked result for `fileCrlf`. -/
def miCrlfUnchecked : MatchInfo :=
  { «matches» := [mkOffsetMatch 0 1 false], collapsed := false, timestamp := 3 }

/-- A result captured at a timestamp unlike any sample file's. -/
def miStale : MatchInfo :=
  { «matches» := [mkOffsetMatch 0 1 true], collapsed := false, timestamp := 99 }

/-- An empty per-file result. -/
def emptyMi : MatchInfo := { «matches» := [], collapsed := false, timestamp := 0 }

/-- A three-file search model whose selected entry is the path `"c"`. -/
def modelC8 : SearchModel :=
  { results := [(String.mk ['b', 'b'], emptyMi), (pathA, emptyMi), (String.mk ['c'], emptyMi)]
    selectedEntry := some (String.mk ['c']) }

/-- A concrete total, transitive path comparison: compare by length. -/
def lenCmp : String → String → Int := fun a b => (a.length : Int) - (b.length : Int)

/-! ### Lemmas about the `$`-expression scanner -/

theorem isDig_ne_dollar {c : Char} (h : isDig c = true) : c ≠ '$' := by
  intro hc
  subst hc
  exact absurd h (by decide)

theorem isDig_ne_amp {c : Char} (h : isDig c = true) : c ≠ '&' := by
  intro hc
  subst hc
  exact absurd h (by decide)

theorem dollarScan_replicate (m : List (Option String)) (j : Nat) :
    ∀ (p : Nat) (rest : List Char),
      dollarScan m p (List.replicate j '$' ++ rest) = dollarScan m (p + j) rest := by
  induction j with
  | zero => intro p rest; simp
  | succ n ih =>
    intro p rest
    rw [List.replicate_succ, List.cons_append]
    have h1 : dollarScan m p ('$' :: (List.replicate n '$' ++ rest))
        = dollarScan m (p + 1) (List.replicate n '$' ++ rest) := by
      rw [dollarScan.eq_def]
      simp
    rw [h1, ih (p + 1) rest]
    have h2 : p + 1 + n = p + (n + 1) := by omega
    rw [h2]

theorem dollarScan_amp (m : List (Option String)) {p : Nat} (hp : 0 < p)
    (rest : List Char) :
    dollarScan m p ('&' :: rest) = dollarsCallback m p ['&'] ++ dollarScan m 0 rest := by
  have h1 : ('&' : Char) ≠ '$' := by decide
  rw [dollarScan.eq_def]
  simp [hp, h1]

theorem dollarScan_digit_last (m : List (Option String)) {p : Nat} {d : Char}
    (hp : 0 < p) (hd : isDig d = true) :
    dollarScan m p [d] = dollarsCallback m p [d] := by
  rw [dollarScan.eq_def]
  simp [hp, hd, isDig_ne_dollar hd, isDig_ne_amp hd]

theorem dollarScan_digit_two (m : List (Option String)) {p : Nat} {d1 d2 : Char}
    (hp : 0 < p) (h1 : isDig d1 = true) (h2 : isDig d2 = true) (rest : List Char) :
    dollarScan m p (d1 :: d2 :: rest)
      = dollarsCallback m p [d1, d2] ++ dollarScan m 0 rest := by
  rw [dollarScan.eq_def]
  simp [hp, h1, h2, isDig_ne_dollar h1, isDig_ne_amp h1]

theorem dollarScan_digit_stop (m : List (Option String)) {p : Nat} {d c2 : Char}
    (hp : 0 < p) (h1 : isDig d = true) (h2 : isDig c2 = false) (rest : List Char) :
    dollarScan m p (d :: c2 :: rest)
      = dollarsCallback m p [d] ++ dollarScan m 0 (c2 :: rest) := by
  rw [dollarScan.eq_def]
  simp [hp, h1, h2, isDig_ne_dollar h1, isDig_ne_amp h1]

theorem digitsTok_ne_amp {tok : List Char} (ht : digitsTok tok = true) : tok ≠ ['&'] := by
  intro h
  subst h
  exact absurd ht (by decide)

theorem dollarsCallback_odd_digits (m : List (Option String)) {k : Nat} {tok : List Char}
    (hk : k % 2 = 1) (ht : digitsTok tok = true) (hnz : digitsToNat tok ≠ 0) :
    dollarsCallback m k tok
      = List.replicate (k - 1) '$' ++ (groupText m (digitsToNat tok)).data := by
  simp [dollarsCallback, hk, digitsTok_ne_amp ht, hnz]

theorem dollarsCallback_odd_amp (m : List (Option String)) {k : Nat} (hk : k % 2 = 1) :
    dollarsCallback m k ['&'] = List.replicate (k - 1) '$' ++ (groupText m 0).data := by
  simp [dollarsCallback, hk]

theorem dollarsCallback_even (m : List (Option String)) {k : Nat} (hk : k % 2 = 0)
    (tok : List Char) : dollarsCallback m k tok = List.replicate k '$' ++ tok := by
  have h1 : ¬ k % 2 = 1 := by omega
  simp [dollarsCallback, h1]

theorem dollarsCallback_zero (m : List (Option String)) (k : Nat) {tok : List Char}
    (hz : digitsToNat tok = 0) (hne : tok ≠ ['&']) :
    dollarsCallback m k tok = List.replicate k '$' ++ tok := by
  unfold dollarsCallback
  split
  · simp [hne, hz]
  · rfl

theorem substPass_run_tok (m : List (Option String)) {k : Nat} {tok : List Char}
    (hk : 0 < k) (ht : digitsTok tok = true ∨ tok = ['&']) :
    dollarSubstPass (dollarRun k ++ tok) m = dollarsCallback m k tok := by
  have hbase : dollarSubstPass (dollarRun k ++ tok) m = dollarScan m k tok := by
    unfold dollarSubstPass dollarRun
    rw [dollarScan_replicate m k 0 tok]
    simp
  rw [hbase]
  rcases ht with ht | ht
  · match tok, ht with
    | [d], ht => exact dollarScan_digit_last m hk ht
    | [d1, d2], ht =>
      have h1 : isDig d1 = true := by
        have := ht
        simp [digitsTok, Bool.and_eq_true] at this
        exact this.1
      have h2 : isDig d2 = true := by
        have := ht
        simp [digitsTok, Bool.and_eq_true] at this
        exact this.2
      rw [dollarScan_digit_two m hk h1 h2 []]
      rw [dollarScan.eq_def]
      simp
  · subst ht
    rw [dollarScan_amp m hk []]
    rw [dollarScan.eq_def]
    simp

theorem collapseDollars_of_noDollarPair :
    ∀ (l : List Char), noDollarPair l = true → collapseDollars l = l := by
  intro l
  induction l with
  | nil => intro _; rfl
  | cons c1 t ih =>
    intro h
    cases t with
    | nil => rfl
    | cons c2 rest =>
      have h' : ¬(c1 = '$' ∧ c2 = '$') ∧ noDollarPair (c2 :: rest) = true := by
        simp only [noDollarPair, Bool.and_eq_true, Bool.not_eq_true',
          Bool.and_eq_false_iff, beq_eq_false_iff_ne, ne_eq] at h
        constructor
        · rcases h.1 with h1 | h1 <;> intro hc <;> exact h1 (by tauto)
        · exact h.2
      simp only [collapseDollars, if_neg h'.1]
      rw [ih h'.2]

theorem collapseDollars_cons_pair (l : List Char) :
    collapseDollars ('$' :: '$' :: l) = '$' :: collapseDollars l := by
  simp [collapseDollars]

/-! ### Claims C3 and C4: `$`-expression expansion semantics -/

/-- Claim C4: an odd-escaped `$n`/`$nn` token (`n` between 1 and 99, the
range of 1–2 digit tokens) substitutes capture group `n`'s text — the
empty string when the group is absent from the match array; an
odd-escaped `$&` substitutes the whole match text (group 0); `$0` and
`$00` are never substituted and pass through as literal text. -/
theorem parseDollars_group_semantics :
    (∀ (k : Nat) (m : List (Option String)) (tok : List Char),
        k % 2 = 1 → digitsTok tok = true → digitsToNat tok ≠ 0 →
        dollarSubstPass (dollarRun k ++ tok) m
          = List.replicate (k - 1) '$' ++ (groupText m (digitsToNat tok)).data)
    ∧ (∀ (k : Nat) (m : List (Option String)), k % 2 = 1 →
        dollarSubstPass (dollarRun k ++ ['&']) m
          = List.replicate (k - 1) '$' ++ (groupText m 0).data)
    ∧ (∀ (i : Nat) (m : List (Option String)),
        m.getD i none = none → groupText m i = String.mk [])
    ∧ (∀ (tok : List Char), digitsTok tok = true → digitsToNat tok ≤ 99)
    ∧ (∀ (k : Nat) (m : List (Option String)), 0 < k →
        dollarSubstPass (dollarRun k ++ ['0']) m = dollarRun k ++ ['0']
        ∧ dollarSubstPass (dollarRun k ++ ['0', '0']) m = dollarRun k ++ ['0', '0'])
    ∧ (∀ (m : List (Option String)),
        parseDollars (String.mk ['$', '0']) m = String.mk ['$', '0']
        ∧ parseDollars (String.mk ['$', '0', '0']) m = String.mk ['$', '0', '0']) := by
  refine ⟨?_, ?_, ?_, ?_, ?_, ?_⟩
  · intro k m tok hk ht hnz
    have h0 : 0 < k := by omega
    rw [substPass_run_tok m h0 (Or.inl ht)]
    exact dollarsCallback_odd_digits m hk ht hnz
  · intro k m hk
    have h0 : 0 < k := by omega
    rw [substPass_run_tok m h0 (Or.inr rfl)]
    exact dollarsCallback_odd_amp m hk
  · intro i m h
    unfold groupText
    rw [h]
  · intro tok ht
    match tok, ht with
    | [d], ht =>
      have hd : 48 ≤ d.toNat ∧ d.toNat ≤ 57 := by simpa [isDig, digitsTok] using ht
      simp only [digitsToNat]
      omega
    | [d1, d2], ht =>
      have hd : (48 ≤ d1.toNat ∧ d1.toNat ≤ 57) ∧ 48 ≤ d2.toNat ∧ d2.toNat ≤ 57 := by
        simpa [isDig, digitsTok, Bool.and_eq_true] using ht
      simp only [digitsToNat]
      omega
  · intro k m hk
    constructor
    · rw [substPass_run_tok m hk (Or.inl (by decide))]
      rw [dollarsCallback_zero m k (by decide) (by decide)]
      rfl
    · rw [substPass_run_tok m hk (Or.inl (by decide))]
      rw [dollarsCallback_zero m k (by decide) (by decide)]
      rfl
  · intro m
    exact ⟨rfl, rfl⟩

/-- Claim C4 witness: the odd-escaped two-digit token `$42` at `k = 3`
dollars substitutes group 42 ('', the group is absent), keeping two
literal dollars. -/
theorem parseDollars_group_semantics_witness :
    (3 % 2 = 1 ∧ digitsTok ['4', '2'] = true ∧ digitsToNat ['4', '2'] ≠ 0)
    ∧ dollarSubstPass (dollarRun 3 ++ ['4', '2']) [some (String.mk ['w'])]
        = List.replicate 2 '$' ++ (groupText [some (String.mk ['w'])] 42).data :=
  ⟨by decide,
   parseDollars_group_semantics.1 3 [some (String.mk ['w'])] ['4', '2']
     (by decide) (by decide) (by decide)⟩

/-- Claim C3 counterexample: with group 1's text `"$$"`, the claimed
equation `expandReplacement("$$$1", m) = "$" ++ group1` fails — the final
`$$`-collapse pass also rewrites the `$$` inside the substituted group
text, so the code yields `"$$"`, not `"$$$"`. -/
theorem parseDollars_escape_counterexample :
    parseDollars (String.mk ['$', '$', '$', '1'])
        [some (String.mk ['a', 'b']), some (String.mk ['$', '$'])]
      = String.mk ['$', '$']
    ∧ parseDollars (String.mk ['$', '$', '$', '1'])
        [some (String.mk ['a', 'b']), some (String.mk ['$', '$'])]
      ≠ String.mk ['$']
        ++ groupText [some (String.mk ['a', 'b']), some (String.mk ['$', '$'])] 1 :=
  ⟨by decide, by decide⟩

/-- Claim C3 (amended): for the substitutable tokens (`$1`–`$99` and `$&`;
`$0`/`$00` are excluded per C4), a run of `k` dollars preceding the token
substitutes when `k` is odd, keeping `k - 1` literal dollars before the
substituted value, and is left untouched as literal text when `k` is
even; the trailing pass then collapses `$$` pairs across the whole
result, including inside substituted group text, so
`expandReplacement("$$1", m) = "$1"` always, and
`expandReplacement("$$$1", m) = "$" ++ group1` whenever group 1's text
contains no `$$` pair. -/
theorem parseDollars_parity_amended :
    (∀ (k : Nat) (m : List (Option String)) (tok : List Char),
        0 < k →
        ((digitsTok tok = true ∧ digitsToNat tok ≠ 0) ∨ tok = ['&']) →
        (k % 2 = 1 →
          dollarSubstPass (dollarRun k ++ tok) m
            = List.replicate (k - 1) '$' ++ (groupText m (tokIndex tok)).data)
        ∧ (k % 2 = 0 → dollarSubstPass (dollarRun k ++ tok) m = dollarRun k ++ tok))
    ∧ (∀ (m : List (Option String)),
        parseDollars (String.mk ['$', '$', '1']) m = String.mk ['$', '1'])
    ∧ (∀ (m : List (Option String)), noDollarPair (groupText m 1).data = true →
        parseDollars (String.mk ['$', '$', '$', '1']) m
          = String.mk ('$' :: (groupText m 1).data)) := by
  refine ⟨?_, ?_, ?_⟩
  · intro k m tok h0 htok
    constructor
    · intro hk
      rcases htok with ⟨ht, hnz⟩ | ht
      · rw [substPass_run_tok m h0 (Or.inl ht)]
        rw [dollarsCallback_odd_digits m hk ht hnz]
        unfold tokIndex
        rw [if_neg (digitsTok_ne_amp ht)]
      · subst ht
        rw [substPass_run_tok m h0 (Or.inr rfl)]
        rw [dollarsCallback_odd_amp m hk]
        rfl
    · intro hk
      rcases htok with ⟨ht, _⟩ | ht
      · rw [substPass_run_tok m h0 (Or.inl ht)]
        exact dollarsCallback_even m hk tok
      · subst ht
        rw [substPass_run_tok m h0 (Or.inr rfl)]
        exact dollarsCallback_even m hk _
  · intro m
    rfl
  · intro m h
    show String.mk (collapseDollars ('$' :: '$' :: (groupText m 1).data))
      = String.mk ('$' :: (groupText m 1).data)
    rw [collapseDollars_cons_pair, collapseDollars_of_noDollarPair _ h]

/-- Claim C3 witness: `expandReplacement("$$$1", m) = "$" ++ group1` for a
match whose group 1 (`"qz"`) has no `$$` pair. -/
theorem parseDollars_parity_amended_witness :
    noDollarPair (groupText [some (String.mk ['w']), some (String.mk ['q', 'z'])] 1).data
      = true
    ∧ parseDollars (String.mk ['$', '$', '$', '1'])
        [some (String.mk ['w']), some (String.mk ['q', 'z'])]
      = String.mk
          ('$' :: (groupText [some (String.mk ['w']), some (String.mk ['q', 'z'])] 1).data) :=
  ⟨by decide,
   parseDollars_parity_amended.2.2 [some (String.mk ['w']), some (String.mk ['q', 'z'])]
     (by decide)⟩

/-! ### Claims C5 and C9: the in-memory variant -/

theorem filterMap_if_checked (l : List Match) (f : Match → DocEdit) :
    (l.filterMap fun m => if m.isChecked then some (f m) else none)
      = (l.filter fun m => m.isChecked).map f := by
  induction l with
  | nil => rfl
  | cons m rest ih =>
    rw [List.filterMap_cons, List.filter_cons]
    by_cases h : m.isChecked = true
    · simp only [h, if_pos, List.map_cons, ih]
    · simp only [h, Bool.false_eq_true, if_false, ih]

/-- Claim C5: the in-memory variant sorts the file's matches by start
position descending, then — inside a single `batchOperation` block —
issues one `replaceRange(replacement, start, end)` per checked match in
that order (the replacement `$`-expanded when the query was a regexp),
touches nothing for unchecked matches, and always resolves with
success. -/
theorem doReplaceInDocument_spec (mi : MatchInfo) (rt : String) (ir : Bool) :
    (_doReplaceInDocument mi rt ir).2.2 = Except.ok ()
    ∧ ((_doReplaceInDocument mi rt ir).2.1).length = 1
    ∧ ((_doReplaceInDocument mi rt ir).1.«matches»).Perm mi.«matches»
    ∧ List.Sorted matchDescLe ((_doReplaceInDocument mi rt ir).1.«matches»)
    ∧ (_doReplaceInDocument mi rt ir).2.1
        = [((_doReplaceInDocument mi rt ir).1.«matches».filter fun m => m.isChecked).map
            fun m => { text := replacementFor rt ir m, start := m.start, endPos := m.endPos }] := by
  refine ⟨rfl, rfl, ?_, ?_, ?_⟩
  · exact List.perm_insertionSort matchDescLe mi.«matches»
  · exact List.sorted_insertionSort matchDescLe mi.«matches»
  · exact congrArg (fun l => [l]) (filterMap_if_checked _ _)

/-- Claim C9: the in-memory variant reorders the stored `matches` array
itself — the returned `matchInfo` holds a permutation of the original
matches sorted descending by start position, and on a store whose
matches were in ascending order the stored order really changes. -/
theorem doReplaceInDocument_mutates_order :
    (∀ (mi : MatchInfo) (rt : String) (ir : Bool),
        ((_doReplaceInDocument mi rt ir).1.«matches»).Perm mi.«matches»
        ∧ List.Sorted matchDescLe ((_doReplaceInDocument mi rt ir).1.«matches»))
    ∧ (_doReplaceInDocument miC9 (String.mk ['x']) false).1.«matches» ≠ miC9.«matches» := by
  refine ⟨fun mi rt ir => ⟨List.perm_insertionSort matchDescLe mi.«matches»,
    List.sorted_insertionSort matchDescLe mi.«matches»⟩, ?_⟩
  decide

/-! ### Claims C1, C2 and C7: the on-disk variant -/

theorem strMk_data (s : String) : String.mk s.data = s := rfl

theorem buildReplacedChars_unchecked (c : List Char) (rt : String) (ir : Bool) :
    ∀ (ms : List Match) (lb : Nat), (∀ m ∈ ms, m.isChecked = false) →
      buildReplacedChars c rt ir ms lb = c.drop lb := by
  intro ms
  induction ms with
  | nil => intro lb _; rfl
  | cons m rest ih =>
    intro lb h
    have hm : m.isChecked = false := h m (by simp)
    rw [buildReplacedChars.eq_def]
    simp only [hm, Bool.false_eq_true, if_false]
    exact ih lb fun x hx => h x (by simp [hx])

theorem onDisk_stale_error (f : FileState) (mi : MatchInfo) (rt : String) (ir : Bool)
    (h : f.timestamp ≠ mi.timestamp) :
    _doReplaceOnDisk f mi rt ir = Except.error RError.fileChanged := by
  unfold _doReplaceOnDisk
  rw [if_pos h]

theorem onDisk_unchecked_ok (f : FileState) (mi : MatchInfo) (rt : String) (ir : Bool)
    (hts : f.timestamp = mi.timestamp)
    (hunch : ∀ m ∈ mi.«matches», m.isChecked = false)
    (hwf : lineEndingsConsistent f) :
    _doReplaceOnDisk f mi rt ir = Except.ok f.contents := by
  unfold _doReplaceOnDisk
  rw [if_neg fun hc => hc hts]
  rw [buildReplacedChars_unchecked _ rt ir mi.«matches» 0 hunch]
  rw [List.drop_zero, strMk_data]
  exact congrArg Except.ok hwf

/-- Claim C1: when the file's current timestamp differs from the captured
one, the on-disk variant rejects with `ERROR_FILE_CHANGED` and performs
no write — the file slot (disk bytes and write log) is untouched. -/
theorem onDisk_stale_no_write (s : FileSlot) (mi : MatchInfo) (rt : String) (ir : Bool)
    (h : s.file.timestamp ≠ mi.timestamp) :
    _doReplaceOnDisk s.file mi rt ir = Except.error RError.fileChanged
    ∧ replaceOnDiskSlot s mi rt ir = (s, Except.error RError.fileChanged) := by
  have h1 := onDisk_stale_error s.file mi rt ir h
  refine ⟨h1, ?_⟩
  unfold replaceOnDiskSlot
  rw [h1]

/-- Claim C1 witness: a slot whose file was modified at 1 against a result
captured at 99. -/
theorem onDisk_stale_no_write_witness :
    slotA.file.timestamp ≠ miStale.timestamp
    ∧ (_doReplaceOnDisk slotA.file miStale (String.mk ['Z']) false
          = Except.error RError.fileChanged
       ∧ replaceOnDiskSlot slotA miStale (String.mk ['Z']) false
          = (slotA, Except.error RError.fileChanged)) :=
  ⟨by decide, onDisk_stale_no_write slotA miStale (String.mk ['Z']) false (by decide)⟩

/-- Claim C7: with every match unchecked and timestamps agreeing, the
on-disk variant hands `file.write` exactly the bytes the file already
holds, so the disk contents are unchanged byte for byte. -/
theorem onDisk_unchecked_roundtrip (s : FileSlot) (mi : MatchInfo) (rt : String) (ir : Bool)
    (hts : s.file.timestamp = mi.timestamp)
    (hunch : ∀ m ∈ mi.«matches», m.isChecked = false)
    (hwf : lineEndingsConsistent s.file) :
    _doReplaceOnDisk s.file mi rt ir = Except.ok s.file.contents
    ∧ (replaceOnDiskSlot s mi rt ir).1.file.contents = s.file.contents := by
  have hok := onDisk_unchecked_ok s.file mi rt ir hts hunch hwf
  refine ⟨hok, ?_⟩
  unfold replaceOnDiskSlot
  rw [hok]

/-- Claim C7 witness: a coherent CRLF file with one unchecked match. -/
theorem onDisk_unchecked_roundtrip_witness :
    (slotCrlf.file.timestamp = miCrlfUnchecked.timestamp
      ∧ (∀ m ∈ miCrlfUnchecked.«matches», m.isChecked = false)
      ∧ lineEndingsConsistent slotCrlf.file)
    ∧ (_doReplaceOnDisk slotCrlf.file miCrlfUnchecked (String.mk ['Z']) true
          = Except.ok slotCrlf.file.contents
       ∧ (replaceOnDiskSlot slotCrlf miCrlfUnchecked (String.mk ['Z']) true).1.file.contents
          = slotCrlf.file.contents) :=
  ⟨⟨by decide, by decide, by decide⟩,
   onDisk_unchecked_roundtrip slotCrlf miCrlfUnchecked (String.mk ['Z']) true
     (by decide) (by decide) (by decide)⟩

/-- Claim C2 counterexample: the on-disk variant performs no sort — the
same two checked matches produce different outputs depending on the
stored order, so the walk is not independent of insertion order (and in
descending order it garbles the file). -/
theorem onDisk_order_dependence_counterexample :
    miC2unsorted.«matches».Perm miC2sorted.«matches»
    ∧ _doReplaceOnDisk fileC2 miC2unsorted (String.mk ['X']) false
        = Except.ok (String.mk ['a', 'b', 'c', 'd', 'X', 'X', 'b', 'c', 'd', 'e', 'f'])
    ∧ _doReplaceOnDisk fileC2 miC2sorted (String.mk ['X']) false
        = Except.ok (String.mk ['X', 'b', 'c', 'd', 'X', 'f'])
    ∧ _doReplaceOnDisk fileC2 miC2unsorted (String.mk ['X']) false
        ≠ _doReplaceOnDisk fileC2 miC2sorted (String.mk ['X']) false :=
  ⟨by decide, by decide, by decide, by decide⟩

theorem okChainB_mono (len : Nat) (ms : List Match) {a b : Nat} (hab : a ≤ b)
    (h : okChainB len b ms = true) : okChainB len a ms = true := by
  cases ms with
  | nil => rfl
  | cons m rest =>
    simp only [okChainB, Bool.and_eq_true, decide_eq_true_eq] at h ⊢
    exact ⟨⟨⟨by omega, h.1.1.2⟩, h.1.2⟩, h.2⟩

theorem applyChecked_extends_take (rt : String) (ir : Bool) (c : List Char) :
    ∀ (ms : List Match) (lb : Nat), okChainB c.length lb ms = true →
      ∀ k, k ≤ lb → ∃ t, applyChecked rt ir c ms = c.take k ++ t := by
  intro ms
  induction ms with
  | nil => intro lb _ k _; exact ⟨c.drop k, (List.take_append_drop k c).symm⟩
  | cons m rest ih =>
    intro lb h k hk
    have hh : (((lb ≤ m.startOffset) ∧ m.startOffset ≤ m.endOffset)
        ∧ m.endOffset ≤ c.length) ∧ okChainB c.length m.endOffset rest = true := by
      simpa only [okChainB, Bool.and_eq_true, decide_eq_true_eq] using h
    obtain ⟨⟨⟨h1, h2⟩, h3⟩, h4⟩ := hh
    by_cases hc : m.isChecked = true
    · obtain ⟨t, ht⟩ := ih m.endOffset h4 m.startOffset h2
      have htake : (applyChecked rt ir c rest).take m.startOffset = c.take m.startOffset := by
        rw [ht, List.take_append_eq_append_take, List.length_take,
          Nat.min_eq_left (by omega), Nat.sub_self, List.take_take,
          Nat.min_self, List.take_zero, List.append_nil]
      refine ⟨(c.take m.startOffset).drop k ++ (replacementFor rt ir m).data
        ++ (applyChecked rt ir c rest).drop m.endOffset, ?_⟩
      simp only [applyChecked]
      rw [if_pos hc]
      unfold spliceReplace
      rw [htake]
      have hsplit : c.take m.startOffset = c.take k ++ (c.take m.startOffset).drop k := by
        conv_lhs => rw [← List.take_append_drop k (c.take m.startOffset)]
        rw [List.take_take, Nat.min_eq_left (by omega)]
      conv_lhs => rw [hsplit]
      simp only [List.append_assoc]
    · obtain ⟨t, ht⟩ := ih m.endOffset h4 k (by omega)
      refine ⟨t, ?_⟩
      simp only [applyChecked]
      rw [if_neg hc]
      exact ht

theorem applyChecked_take_agrees (rt : String) (ir : Bool) (c : List Char)
    {ms : List Match} {lb : Nat} (h : okChainB c.length lb ms = true)
    (hlb : lb ≤ c.length) :
    (applyChecked rt ir c ms).take lb = c.take lb := by
  obtain ⟨t, ht⟩ := applyChecked_extends_take rt ir c ms lb h lb le_rfl
  rw [ht, List.take_append_eq_append_take, List.length_take,
    Nat.min_eq_left hlb, Nat.sub_self, List.take_take, Nat.min_self,
    List.take_zero, List.append_nil]

theorem buildReplacedChars_eq_applyChecked (rt : String) (ir : Bool) (c : List Char) :
    ∀ (ms : List Match) (lb : Nat), okChainB c.length lb ms = true →
      buildReplacedChars c rt ir ms lb = (applyChecked rt ir c ms).drop lb := by
  intro ms
  induction ms with
  | nil => intro lb _; rfl
  | cons m rest ih =>
    intro lb h
    have hh : (((lb ≤ m.startOffset) ∧ m.startOffset ≤ m.endOffset)
        ∧ m.endOffset ≤ c.length) ∧ okChainB c.length m.endOffset rest = true := by
      simpa only [okChainB, Bool.and_eq_true, decide_eq_true_eq] using h
    obtain ⟨⟨⟨h1, h2⟩, h3⟩, h4⟩ := hh
    have htake : (applyChecked rt ir c rest).take m.startOffset = c.take m.startOffset :=
      applyChecked_take_agrees rt ir c (okChainB_mono c.length rest h2 h4) (by omega)
    by_cases hc : m.isChecked = true
    · rw [buildReplacedChars.eq_def]
      simp only [hc, if_true]
      rw [ih m.endOffset h4]
      simp only [applyChecked]
      rw [if_pos hc]
      unfold spliceReplace
      rw [htake]
      rw [List.drop_append_eq_append_drop, List.drop_append_eq_append_drop,
        List.length_append, List.length_take, Nat.min_eq_left (by omega)]
      have z1 : lb - m.startOffset = 0 := by omega
      have z2 : lb - (m.startOffset + (replacementFor rt ir m).data.length) = 0 := by
        omega
      rw [z1, z2, List.drop_zero, List.drop_zero]
    · rw [buildReplacedChars.eq_def]
      simp only [hc, Bool.false_eq_true, if_false]
      rw [ih lb (okChainB_mono c.length rest (by omega) h4)]
      simp only [applyChecked]
      rw [if_neg hc]

/-- Claim C2 (amended): the on-disk variant does not re-sort; it walks the
matches in stored order, assuming them already sorted (the source notes
"this assumes that the matches are sorted"), so the output depends on
insertion order.  When the stored matches are ascending by `startOffset`,
non-overlapping and in bounds, the walk is correct: it produces the text
in which each checked match's `[startOffset, endOffset)` range has been
replaced (equivalently, the checked matches spliced one at a time, last
first), CRLF-restored before the write. -/
theorem onDisk_walk_correct_when_sorted (f : FileState) (mi : MatchInfo) (rt : String)
    (ir : Bool) (hts : f.timestamp = mi.timestamp)
    (hchain : okChainB (readText f).data.length 0 mi.«matches» = true) :
    _doReplaceOnDisk f mi rt ir
      = Except.ok (encodeLE f.lineEndings
          (String.mk (applyChecked rt ir (readText f).data mi.«matches»))) := by
  unfold _doReplaceOnDisk
  rw [if_neg fun hc => hc hts]
  rw [buildReplacedChars_eq_applyChecked rt ir _ mi.«matches» 0 hchain]
  rw [List.drop_zero]

/-- Claim C2 witness: the ascending store from the counterexample is
correctly replaced by the stored-order walk. -/
theorem onDisk_walk_correct_when_sorted_witness :
    (fileC2.timestamp = miC2sorted.timestamp
      ∧ okChainB (readText fileC2).data.length 0 miC2sorted.«matches» = true)
    ∧ _doReplaceOnDisk fileC2 miC2sorted (String.mk ['X']) false
        = Except.ok (encodeLE fileC2.lineEndings
            (String.mk (applyChecked (String.mk ['X']) false
              (readText fileC2).data miC2sorted.«matches»))) :=
  ⟨⟨by decide, by decide⟩,
   onDisk_walk_correct_when_sorted fileC2 miC2sorted (String.mk ['X']) false
     (by decide) (by decide)⟩

/-! ### Claim C8: `SearchModel.getSortedFiles` -/

/-- Claim C8: `getSortedFiles` returns all file-path keys; the selected
path, when present among them, sorts first; the remaining pairs are
ordered by the path-comparison provider; and the call is deterministic.
The provider is assumed to be a total, transitive comparison (spec §6:
a deterministic locale/path-aware ordering). -/
theorem getSortedFiles_spec (model : SearchModel) (cmp : String → String → Int)
    (htot : ∀ a b, cmp a b ≤ 0 ∨ cmp b a ≤ 0)
    (htrans : ∀ a b c, cmp a b ≤ 0 → cmp b c ≤ 0 → cmp a c ≤ 0) :
    (getSortedFiles model cmp).Perm (model.results.map Prod.fst)
    ∧ List.Sorted (sortedFilesLe model.selectedEntry cmp) (getSortedFiles model cmp)
    ∧ (getSortedFiles model cmp).Pairwise (fun a b =>
        model.selectedEntry ≠ some a → model.selectedEntry ≠ some b → cmp a b ≤ 0)
    ∧ (∀ sel, model.selectedEntry = some sel → sel ∈ model.results.map Prod.fst →
        (getSortedFiles model cmp).head? = some sel)
    ∧ getSortedFiles model cmp = getSortedFiles model cmp := by
  haveI hT : IsTotal String (sortedFilesLe model.selectedEntry cmp) := by
    refine ⟨fun a b => ?_⟩
    unfold sortedFilesLe sortedFilesComparator
    by_cases h1 : model.selectedEntry = some a
    · rw [if_pos h1]
      left
      omega
    · by_cases h2 : model.selectedEntry = some b
      · rw [if_neg h1, if_pos h2, if_pos h2]
        right
        omega
      · rw [if_neg h1, if_neg h2, if_neg h2, if_neg h1]
        exact htot a b
  haveI hTr : IsTrans String (sortedFilesLe model.selectedEntry cmp) := by
    refine ⟨fun a b c hab hbc => ?_⟩
    unfold sortedFilesLe sortedFilesComparator at hab hbc ⊢
    by_cases h1 : model.selectedEntry = some a
    · rw [if_pos h1]
      omega
    · by_cases h2 : model.selectedEntry = some b
      · rw [if_neg h1, if_pos h2] at hab
        exact absurd hab (by omega)
      · by_cases h3 : model.selectedEntry = some c
        · rw [if_neg h2, if_pos h3] at hbc
          exact absurd hbc (by omega)
        · rw [if_neg h1, if_neg h2] at hab
          rw [if_neg h2, if_neg h3] at hbc
          rw [if_neg h1, if_neg h3]
          exact htrans a b c hab hbc
  have hperm := List.perm_insertionSort (sortedFilesLe model.selectedEntry cmp)
    (model.results.map Prod.fst)
  have hsorted := List.sorted_insertionSort (sortedFilesLe model.selectedEntry cmp)
    (model.results.map Prod.fst)
  refine ⟨hperm, hsorted, ?_, ?_, rfl⟩
  · refine hsorted.imp ?_
    intro a b hr hna hnb
    unfold sortedFilesLe sortedFilesComparator at hr
    rw [if_neg hna, if_neg hnb] at hr
    exact hr
  · intro sel hsel hmem
    suffices h : ∀ (l : List String),
        List.Sorted (sortedFilesLe model.selectedEntry cmp) l → sel ∈ l →
        l.head? = some sel from
      h _ hsorted (hperm.mem_iff.mpr hmem)
    intro l hs hm
    cases l with
    | nil => cases hm
    | cons x xs =>
      by_cases hx : x = sel
      · simp [hx]
      · exfalso
        have hsel2 : sel ∈ xs := by
          cases hm with
          | head => exact absurd rfl hx
          | tail _ h2 => exact h2
        have hle := List.rel_of_sorted_cons hs sel hsel2
        unfold sortedFilesLe sortedFilesComparator at hle
        rw [hsel] at hle
        rw [if_neg fun h2 => hx (Option.some.inj h2).symm, if_pos rfl] at hle
        exact absurd hle (by omega)

/-- Claim C8 witness: with a length-comparing provider and selected path
`"c"`, the selected key sorts first. -/
theorem getSortedFiles_spec_witness :
    (∀ a b, lenCmp a b ≤ 0 ∨ lenCmp b a ≤ 0)
    ∧ (∀ a b c, lenCmp a b ≤ 0 → lenCmp b c ≤ 0 → lenCmp a c ≤ 0)
    ∧ (getSortedFiles modelC8 lenCmp).head? = some (String.mk ['c']) := by
  have t1 : ∀ a b : String, lenCmp a b ≤ 0 ∨ lenCmp b a ≤ 0 := by
    intro a b
    unfold lenCmp
    omega
  have t2 : ∀ a b c : String, lenCmp a b ≤ 0 → lenCmp b c ≤ 0 → lenCmp a c ≤ 0 := by
    intro a b c
    unfold lenCmp
    omega
  exact ⟨t1, t2,
    (getSortedFiles_spec modelC8 lenCmp t1 t2).2.2.2.1 (String.mk ['c']) rfl (by decide)⟩

/-! ### Claims C6 and C10: batch orchestration -/

theorem lookupSlot_cons (e : String × FileSlot) (rest : List (String × FileSlot))
    (q : String) :
    lookupSlot (e :: rest) q = if e.1 = q then some e.2 else lookupSlot rest q := rfl

theorem updateSlot_cons (e : String × FileSlot) (rest : List (String × FileSlot))
    (p : String) (s : FileSlot) :
    updateSlot (e :: rest) p s = (if e.1 = p then (p, s) else e) :: updateSlot rest p s := rfl

theorem lookupSlot_updateSlot (w : List (String × FileSlot)) (p : String) (s : FileSlot)
    (q : String) :
    lookupSlot (updateSlot w p s) q
      = if q = p then
          (match lookupSlot w p with
            | some _ => some s
            | none => none)
        else lookupSlot w q := by
  induction w with
  | nil =>
    simp only [updateSlot, lookupSlot]
    split <;> rfl
  | cons e rest ih =>
    rw [updateSlot_cons]
    by_cases hep : e.1 = p
    · rw [if_pos hep, lookupSlot_cons]
      by_cases hqp : q = p
      · subst hqp
        rw [if_pos rfl, if_pos rfl, lookupSlot_cons, if_pos hep]
      · rw [if_neg fun h => hqp h.symm, ih, if_neg hqp, if_neg hqp, lookupSlot_cons,
          if_neg fun h => hqp (hep.symm.trans h).symm]
    · rw [if_neg hep, lookupSlot_cons]
      by_cases heq : e.1 = q
      · rw [if_pos heq]
        have hqp : ¬ q = p := fun h => hep (heq.trans h)
        rw [if_neg hqp, lookupSlot_cons, if_pos heq]
      · rw [if_neg heq, ih]
        by_cases hqp : q = p
        · rw [if_pos hqp, if_pos hqp, lookupSlot_cons, if_neg hep]
        · rw [if_neg hqp, if_neg hqp, lookupSlot_cons, if_neg heq]

theorem doReplaceInOneFile_some (slot : FileSlot) (mi : MatchInfo) (rt : String)
    (opts : ReplaceOptions) :
    ∃ s1 r, _doReplaceInOneFile (some slot) mi rt opts = (some s1, r) := by
  unfold _doReplaceInOneFile
  by_cases h1 : slot.isOpen
  · simp only [h1, if_true]
    exact ⟨_, _, rfl⟩
  · by_cases h2 : opts.forceFilesOpen
    · simp only [h1, h2, if_true, if_false]
      exact ⟨_, _, rfl⟩
    · simp only [h1, h2, if_false]
      exact ⟨_, _, rfl⟩

theorem doReplaceInOneFile_disk (slot : FileSlot) (mi : MatchInfo) (rt : String)
    (opts : ReplaceOptions) (hopen : slot.isOpen = false)
    (hforce : opts.forceFilesOpen = false) :
    _doReplaceInOneFile (some slot) mi rt opts
      = (some (replaceOnDiskSlot slot mi rt opts.isRegexp).1,
         (replaceOnDiskSlot slot mi rt opts.isRegexp).2) := by
  unfold _doReplaceInOneFile
  simp only [hopen, hforce, Bool.false_eq_true, if_false]

theorem stepRepl_eq (rt : String) (opts : ReplaceOptions)
    (w : List (String × FileSlot)) (errs0 : List (String × RError))
    (pr : String × MatchInfo) (os : Option FileSlot) (r : Except RError Unit)
    (hop : _doReplaceInOneFile (lookupSlot w pr.1) pr.2 rt opts = (os, r)) :
    stepRepl rt opts (w, errs0) pr
      = (writeBack w pr.1 os, errs0 ++ errEntry pr.1 r) := by
  cases os <;> cases r <;>
    (unfold stepRepl
     dsimp only
     rw [hop]) <;>
    simp [errEntry, writeBack]

theorem filterMap_cons_errOf (rt : String) (opts : ReplaceOptions)
    (w : List (String × FileSlot)) (pr : String × MatchInfo)
    (rest : List (String × MatchInfo)) (os : Option FileSlot) (r : Except RError Unit)
    (hop : _doReplaceInOneFile (lookupSlot w pr.1) pr.2 rt opts = (os, r)) :
    (pr :: rest).filterMap (errOf rt opts w)
      = errEntry pr.1 r ++ rest.filterMap (errOf rt opts w) := by
  cases r with
  | ok u =>
    have hhd : errOf rt opts w pr = none := by
      unfold errOf
      rw [hop]
    rw [List.filterMap_cons, hhd]
    simp [errEntry]
  | error e =>
    have hhd : errOf rt opts w pr = some (pr.1, e) := by
      unfold errOf
      rw [hop]
    rw [List.filterMap_cons, hhd]
    simp [errEntry]

theorem stepRepl_foldl_spec (rt : String) (opts : ReplaceOptions) :
    ∀ (results : List (String × MatchInfo)) (w : List (String × FileSlot))
      (errs0 : List (String × RError)),
      (results.map Prod.fst).Nodup →
      (results.foldl (stepRepl rt opts) (w, errs0)).2
          = errs0 ++ results.filterMap (errOf rt opts w)
      ∧ (∀ q, q ∉ results.map Prod.fst →
          lookupSlot (results.foldl (stepRepl rt opts) (w, errs0)).1 q = lookupSlot w q)
      ∧ (∀ pr ∈ results,
          lookupSlot (results.foldl (stepRepl rt opts) (w, errs0)).1 pr.1
            = (_doReplaceInOneFile (lookupSlot w pr.1) pr.2 rt opts).1) := by
  intro results
  induction results with
  | nil =>
    intro w errs0 _
    exact ⟨by simp, fun q _ => rfl, fun pr hpr => absurd hpr (by simp)⟩
  | cons pr rest ih =>
    intro w errs0 hnd
    have hnd1 : (rest.map Prod.fst).Nodup := by
      rw [List.map_cons, List.nodup_cons] at hnd
      exact hnd.2
    have hnot : pr.1 ∉ rest.map Prod.fst := by
      rw [List.map_cons, List.nodup_cons] at hnd
      exact hnd.1
    rcases hop : _doReplaceInOneFile (lookupSlot w pr.1) pr.2 rt opts with ⟨os, r⟩
    have hstep := stepRepl_eq rt opts w errs0 pr os r hop
    have hkeep : ∀ q, q ≠ pr.1 → lookupSlot (writeBack w pr.1 os) q = lookupSlot w q := by
      intro q hq
      cases os with
      | some s1 =>
        show lookupSlot (updateSlot w pr.1 s1) q = lookupSlot w q
        rw [lookupSlot_updateSlot, if_neg hq]
      | none => rfl
    obtain ⟨ih1, ih2, ih3⟩ := ih (writeBack w pr.1 os) (errs0 ++ errEntry pr.1 r) hnd1
    have hcongr : rest.filterMap (errOf rt opts (writeBack w pr.1 os))
        = rest.filterMap (errOf rt opts w) := by
      apply List.filterMap_congr
      intro pr2 hpr2
      have hne : pr2.1 ≠ pr.1 := by
        intro h
        exact hnot (h ▸ List.mem_map_of_mem Prod.fst hpr2)
      unfold errOf
      rw [hkeep pr2.1 hne]
    refine ⟨?_, ?_, ?_⟩
    · rw [List.foldl_cons, hstep, ih1, hcongr,
        filterMap_cons_errOf rt opts w pr rest os r hop, List.append_assoc]
    · intro q hq
      rw [List.map_cons] at hq
      have hq1 : q ≠ pr.1 := fun h => hq (h ▸ List.mem_cons_self pr.1 _)
      have hq2 : q ∉ rest.map Prod.fst := fun h => hq (List.mem_cons_of_mem _ h)
      rw [List.foldl_cons, hstep, ih2 q hq2, hkeep q hq1]
    · intro pr2 hpr2
      rcases List.mem_cons.mp hpr2 with heq | hmem2
      · subst heq
        rw [List.foldl_cons, hstep, ih2 pr2.1 hnot, hop]
        cases os with
        | some s1 =>
          obtain ⟨slot, hslot⟩ : ∃ slot, lookupSlot w pr2.1 = some slot := by
            cases hl : lookupSlot w pr2.1 with
            | some slot => exact ⟨slot, rfl⟩
            | none =>
              rw [hl] at hop
              unfold _doReplaceInOneFile at hop
              cases hop
          show lookupSlot (updateSlot w pr2.1 s1) pr2.1 = some s1
          rw [lookupSlot_updateSlot, if_pos rfl, hslot]
        | none =>
          show lookupSlot w pr2.1 = none
          cases hl : lookupSlot w pr2.1 with
          | none => rfl
          | some slot =>
            obtain ⟨s1, r1, hsome⟩ := doReplaceInOneFile_some slot pr2.2 rt opts
            rw [hl, hsome] at hop
            cases hop
      · have hne : pr2.1 ≠ pr.1 := by
          intro h
          exact hnot (h ▸ List.mem_map_of_mem Prod.fst hmem2)
        rw [List.foldl_cons, hstep, ih3 pr2 hmem2, hkeep pr2.1 hne]

/-- Claim C6: the batch resolves iff every per-file operation resolved;
otherwise it rejects with exactly the `{path, error}` entries of the
failing files (succeeded files are not reported), and every file's own
operation is applied to the world regardless of other files'
failures. -/
theorem performReplacements_aggregation (w : List (String × FileSlot))
    (results : List (String × MatchInfo)) (rt : String) (opts : ReplaceOptions)
    (hN : (results.map Prod.fst).Nodup) :
    ((performReplacements w results rt opts).2 = Except.ok ()
      ↔ ∀ pr ∈ results,
          (_doReplaceInOneFile (lookupSlot w pr.1) pr.2 rt opts).2 = Except.ok ())
    ∧ (∀ errs, (performReplacements w results rt opts).2 = Except.error errs →
        errs = results.filterMap (errOf rt opts w) ∧ errs ≠ [])
    ∧ (∀ pr ∈ results,
        lookupSlot (performReplacements w results rt opts).1 pr.1
          = (_doReplaceInOneFile (lookupSlot w pr.1) pr.2 rt opts).1) := by
  obtain ⟨ha, hb, hc⟩ := stepRepl_foldl_spec rt opts results w [] hN
  have hperf1 : (performReplacements w results rt opts).1
      = (results.foldl (stepRepl rt opts) (w, [])).1 := rfl
  have hperf2 : (performReplacements w results rt opts).2
      = if (results.foldl (stepRepl rt opts) (w, [])).2 = [] then Except.ok ()
        else Except.error (results.foldl (stepRepl rt opts) (w, [])).2 := rfl
  rw [List.nil_append] at ha
  refine ⟨?_, ?_, ?_⟩
  · constructor
    · intro hok pr hpr
      by_cases hE : (results.foldl (stepRepl rt opts) (w, [])).2 = []
      · rw [ha] at hE
        have h5 := List.filterMap_eq_nil_iff.mp hE pr hpr
        unfold errOf at h5
        rcases hr2 : (_doReplaceInOneFile (lookupSlot w pr.1) pr.2 rt opts).2 with e | u
        · rw [hr2] at h5
          cases h5
        · cases u
          rfl
      · rw [hperf2, if_neg hE] at hok
        cases hok
    · intro hall
      have hE : (results.foldl (stepRepl rt opts) (w, [])).2 = [] := by
        rw [ha]
        apply List.filterMap_eq_nil_iff.mpr
        intro pr hpr
        unfold errOf
        rw [hall pr hpr]
      rw [hperf2, if_pos hE]
  · intro errs herr
    by_cases hE : (results.foldl (stepRepl rt opts) (w, [])).2 = []
    · rw [hperf2, if_pos hE] at herr
      cases herr
    · rw [hperf2, if_neg hE] at herr
      have h6 := Except.error.inj herr
      subst h6
      exact ⟨ha.symm ▸ rfl, hE⟩
  · intro pr hpr
    rw [hperf1]
    exact hc pr hpr

/-- Claim C6 witness: two files, the second stale — the batch rejects with
exactly the one failing entry, which is the complete failure list. -/
theorem performReplacements_aggregation_witness :
    (resultsAB.map Prod.fst).Nodup
    ∧ (performReplacements worldAB resultsAB (String.mk ['Z']) sampleReplaceOpts).2
        = Except.error [(pathB, RError.fileChanged)]
    ∧ ([(pathB, RError.fileChanged)]
        = resultsAB.filterMap (errOf (String.mk ['Z']) sampleReplaceOpts worldAB)
      ∧ [(pathB, RError.fileChanged)] ≠ ([] : List (String × RError))) :=
  ⟨by decide, by decide,
   (performReplacements_aggregation worldAB resultsAB (String.mk ['Z']) sampleReplaceOpts
     (by decide)).2.1 [(pathB, RError.fileChanged)] (by decide)⟩

/-- Claim C10: the batch dispatches one operation per results key even
when the file has zero checked matches.  For such a file that is closed
(and `forceFilesOpen` unset), the on-disk path still runs: a stale
timestamp makes the batch report `FileChanged` for it (with no write),
and matching timestamps make it write the unmodified contents back (the
write is logged even though nothing changed). -/
theorem performReplacements_zero_checked (w : List (String × FileSlot))
    (results : List (String × MatchInfo)) (rt : String) (opts : ReplaceOptions)
    (p : String) (mi : MatchInfo) (slot : FileSlot)
    (hN : (results.map Prod.fst).Nodup)
    (hmem : (p, mi) ∈ results)
    (hlk : lookupSlot w p = some slot)
    (hopen : slot.isOpen = false)
    (hforce : opts.forceFilesOpen = false)
    (hunch : ∀ m ∈ mi.«matches», m.isChecked = false)
    (hwf : lineEndingsConsistent slot.file) :
    (slot.file.timestamp ≠ mi.timestamp →
      (∃ errs, (performReplacements w results rt opts).2 = Except.error errs
        ∧ (p, RError.fileChanged) ∈ errs)
      ∧ lookupSlot (performReplacements w results rt opts).1 p = some slot)
    ∧ (slot.file.timestamp = mi.timestamp →
      lookupSlot (performReplacements w results rt opts).1 p
        = some { slot with writes := slot.writes ++ [slot.file.contents] }) := by
  obtain ⟨ha, hb, hc⟩ := stepRepl_foldl_spec rt opts results w [] hN
  rw [List.nil_append] at ha
  have hperf1 : (performReplacements w results rt opts).1
      = (results.foldl (stepRepl rt opts) (w, [])).1 := rfl
  have hperf2 : (performReplacements w results rt opts).2
      = if (results.foldl (stepRepl rt opts) (w, [])).2 = [] then Except.ok ()
        else Except.error (results.foldl (stepRepl rt opts) (w, [])).2 := rfl
  have hdisp : _doReplaceInOneFile (lookupSlot w p) mi rt opts
      = (some (replaceOnDiskSlot slot mi rt opts.isRegexp).1,
         (replaceOnDiskSlot slot mi rt opts.isRegexp).2) := by
    rw [hlk]
    exact doReplaceInOneFile_disk slot mi rt opts hopen hforce
  have hc2 := hc (p, mi) hmem
  dsimp only at hc2
  constructor
  · intro hne
    have hop2 : _doReplaceOnDisk slot.file mi rt opts.isRegexp
        = Except.error RError.fileChanged :=
      onDisk_stale_error slot.file mi rt opts.isRegexp hne
    have hr : replaceOnDiskSlot slot mi rt opts.isRegexp
        = (slot, Except.error RError.fileChanged) := by
      unfold replaceOnDiskSlot
      rw [hop2]
    have hofp : errOf rt opts w (p, mi) = some (p, RError.fileChanged) := by
      unfold errOf
      dsimp only
      rw [hdisp, hr]
    have hmemf : (p, RError.fileChanged) ∈ results.filterMap (errOf rt opts w) :=
      List.mem_filterMap.mpr ⟨(p, mi), hmem, hofp⟩
    have hE : ¬ (results.foldl (stepRepl rt opts) (w, [])).2 = [] := by
      rw [ha]
      intro h
      rw [h] at hmemf
      cases hmemf
    refine ⟨⟨(results.foldl (stepRepl rt opts) (w, [])).2, ?_, ?_⟩, ?_⟩
    · rw [hperf2, if_neg hE]
    · rw [ha]
      exact hmemf
    · rw [hperf1, hc2, hdisp, hr]
  · intro heq
    have hok : _doReplaceOnDisk slot.file mi rt opts.isRegexp
        = Except.ok slot.file.contents :=
      onDisk_unchecked_ok slot.file mi rt opts.isRegexp heq hunch hwf
    have hr : replaceOnDiskSlot slot mi rt opts.isRegexp
        = ({ slot with writes := slot.writes ++ [slot.file.contents] }, Except.ok ()) := by
      unfold replaceOnDiskSlot
      rw [hok]
    rw [hperf1, hc2, hdisp, hr]

/-- Claim C10 witness: one closed file with a single unchecked match and
matching timestamps — after the batch, the unmodified contents were
written back (the write log grew by the file's own bytes). -/
theorem performReplacements_zero_checked_witness :
    (([(pathA, miZeroChecked)].map Prod.fst).Nodup
      ∧ (pathA, miZeroChecked) ∈ [(pathA, miZeroChecked)]
      ∧ lookupSlot [(pathA, slotA)] pathA = some slotA
      ∧ slotA.isOpen = false
      ∧ sampleReplaceOpts.forceFilesOpen = false
      ∧ (∀ m ∈ miZeroChecked.«matches», m.isChecked = false)
      ∧ lineEndingsConsistent slotA.file
      ∧ slotA.file.timestamp = miZeroChecked.timestamp)
    ∧ lookupSlot (performReplacements [(pathA, slotA)] [(pathA, miZeroChecked)]
          (String.mk ['Z']) sampleReplaceOpts).1 pathA
        = some { slotA with writes := slotA.writes ++ [slotA.file.contents] } :=
  ⟨⟨by decide, by decide, by decide, by decide, by decide, by decide, by decide, by decide⟩,
   (performReplacements_zero_checked [(pathA, slotA)] [(pathA, miZeroChecked)]
     (String.mk ['Z']) sampleReplaceOpts pathA miZeroChecked slotA
     (by decide) (by decide) (by decide) (by decide) (by decide) (by decide)
     (by decide)).2 (by decide)⟩

end Brackets
